import Mathlib

/-!
Shallow embedding of `src/expense_tracker.py` (a single-file command-line
expense tracker) and proofs of the specification's claims about it.

Modelling conventions:
* Python `float` amounts are modelled as rationals `ℚ` (the spec treats
  `amount` as a non-negative real number; JSON serialisation of finite
  floats round-trips exactly).
* Python `int` ids are modelled as `ℤ`.
* The backing JSON file (`data/expenses.json`) is modelled as a
  `FileState`: absent, present-but-unparseable, or a parsed list of JSON
  objects.  A stored object is a `StoredEntry` whose fields are optional
  (mirroring `entry.get(key, default)`), and whose `amount` field records
  whether Python's `float(...)` coercion would succeed.
* Interactive `input()` calls are modelled as explicit arguments
  (already stripped, as the code calls `.strip()` immediately).
-/

namespace ExpenseTracker

/-- One expense entry, mirroring the `@dataclass Expense` of the source:
`id : int`, `date : str`, `category : str`, `description : str`,
`amount : float`. -/
structure Expense where
  id : ℤ
  date : String
  category : String
  description : String
  amount : ℚ
deriving DecidableEq, Repr

/-- The value stored under the `"amount"` key of a JSON object, as seen by
`float(entry.get("amount", 0))`:
* `missing`: no `"amount"` key, so `float(0) = 0.0`;
* `num q`: a JSON number, which `float` accepts;
* `str v`: a JSON string; `v` is its numeric reading (`some q` when Python
  `float` parses it to `q`, `none` when `float` raises `ValueError`). -/
inductive StoredAmount where
  | missing : StoredAmount
  | num : ℚ → StoredAmount
  | str : Option ℚ → StoredAmount
deriving DecidableEq, Repr

/-- One JSON object of the stored array, with every key optional,
mirroring the `entry.get(...)` accesses of `load_expenses`. -/
structure StoredEntry where
  id : Option ℤ
  date : Option String
  category : Option String
  description : Option String
  amount : StoredAmount
deriving DecidableEq, Repr

/-- The state of the backing file `data/expenses.json`:
absent, present but not valid JSON (`json.JSONDecodeError`), or a parsed
array of objects. -/
inductive FileState where
  | absent : FileState
  | malformed : FileState
  | parsed : List StoredEntry → FileState
deriving DecidableEq, Repr

/-- `float(entry.get("amount", 0))`: the default `0` and JSON numbers
coerce, a string coerces exactly when it has a numeric reading, and a
non-numeric string raises `ValueError`, modelled as `Except.error`. -/
def coerceAmount : StoredAmount → Except String ℚ
  | .missing => .ok 0
  | .num q => .ok q
  | .str (some q) => .ok q
  | .str none => .error "could not convert string to float"

/-- Building one `Expense` from a stored object inside the loop of
`load_expenses`: missing `id` defaults to `0`, missing text fields default
to `""`, and the amount coercion may fail. -/
def loadEntry (entry : StoredEntry) : Except String Expense :=
  match coerceAmount entry.amount with
  | .error msg => .error msg
  | .ok a =>
      .ok { id := entry.id.getD 0
            date := entry.date.getD ""
            category := entry.category.getD ""
            description := entry.description.getD ""
            amount := a }

/-- The `for entry in raw` loop of `load_expenses`: entries are converted
in order; the first failing coercion aborts the whole load. -/
def loadItems : List StoredEntry → Except String (List Expense)
  | [] => .ok []
  | entry :: rest =>
      match loadEntry entry with
      | .error msg => .error msg
      | .ok e =>
          match loadItems rest with
          | .error msg => .error msg
          | .ok es => .ok (e :: es)

/-- `load_expenses()`: an absent file yields `[]`, a `JSONDecodeError`
yields `[]`, and a parsed array is converted entry by entry. -/
def load_expenses : FileState → Except String (List Expense)
  | .absent => .ok []
  | .malformed => .ok []
  | .parsed raw => loadItems raw

/-- `asdict(e)` as serialised by `json.dumps`: every key present, the
amount written as a JSON number. -/
def storedOfExpense (e : Expense) : StoredEntry :=
  { id := some e.id
    date := some e.date
    category := some e.category
    description := some e.description
    amount := .num e.amount }

/-- `save_expenses(expenses)`: overwrites the file with the JSON array of
`asdict(e)` objects, in list order. -/
def save_expenses (expenses : List Expense) : FileState :=
  .parsed (expenses.map storedOfExpense)

/-- `next_id(expenses)`: `1` on an empty list, otherwise Python
`max(e.id for e in expenses) + 1`. -/
def next_id (expenses : List Expense) : ℤ :=
  match expenses with
  | [] => 1
  | e :: rest => (rest.foldl (fun m x => max m x.id) e.id) + 1

/-- The `while True` amount-validation loop of `add_expense`, over the
sequence of user inputs.  Each input is given by its Python `float`
reading (`none` when `float` raises `ValueError`, which re-prompts).
A negative value re-prompts; the first non-negative numeric input is
returned.  `none` means the input sequence was exhausted without a valid
amount (the Python loop would still be prompting). -/
def readAmount : List (Option ℚ) → Option ℚ
  | [] => none
  | i :: rest =>
      match i with
      | none => readAmount rest
      | some q => if q < 0 then readAmount rest else some q

/-- `add_expense(expenses)`: the stripped date input defaults to today,
the stripped category defaults to `"uncategorized"`, the stripped
description defaults to `"No description"`, the amount is obtained from
the validation loop, and the new `Expense` with id `next_id(expenses)` is
appended.  Returns the new list (the source then passes it to
`save_expenses`), or `none` when no valid amount was ever supplied. -/
def add_expense (expenses : List Expense) (today rawDate category desc : String)
    (amountInputs : List (Option ℚ)) : Option (List Expense) :=
  let date := if rawDate = "" then today else rawDate
  let cat := if category = "" then "uncategorized" else category
  let dsc := if desc = "" then "No description" else desc
  match readAmount amountInputs with
  | none => none
  | some money =>
      some (expenses ++
        [{ id := next_id expenses, date := date, category := cat,
           description := dsc, amount := money }])

/-- `reset_expenses()`: given the stripped, lowercased confirmation
answer, writes the literal text `"[]"` (the empty JSON array, i.e.
`FileState.parsed []`) over the file when the answer is `"yes"` or `"y"`,
and leaves the file untouched otherwise.  The in-memory record set is not
consulted. -/
def reset_expenses (confirm : String) (fs : FileState) : FileState :=
  if confirm = "yes" ∨ confirm = "y" then .parsed [] else fs

/-! ### The aggregator

A Python `dict` built by repeated `d[k] = d.get(k, 0) + v` is modelled as
an association list in insertion order: assignment to an existing key
replaces its value in place, assignment to a new key appends. -/

/-- `d.get(k, default)` on the association-list model of a `dict`:
the value of the first (in a well-formed dict, only) binding of `k`, or
the default. -/
def dictGet (d : List (String × ℚ)) (k : String) (dflt : ℚ) : ℚ :=
  match d with
  | [] => dflt
  | (k', v') :: rest => if k' = k then v' else dictGet rest k dflt

/-- `d[k] = v` on the association-list model of a `dict`: replace the
binding of `k` in place if present, else append `(k, v)`. -/
def dictInsert (d : List (String × ℚ)) (k : String) (v : ℚ) : List (String × ℚ) :=
  match d with
  | [] => [(k, v)]
  | (k', v') :: rest =>
      if k' = k then (k, v) :: rest else (k', v') :: dictInsert rest k v

/-- Python `sorted` over `(key, value)` pairs with pairwise-distinct keys:
ascending by key.  (With distinct keys, comparing the `(key, value)`
tuples lexicographically is the same as comparing keys.) -/
def sortByKey (d : List (String × ℚ)) : List (String × ℚ) :=
  List.insertionSort (fun a b => a.1 ≤ b.1) d

/-- The accumulation loop shared by `summary_category` and
`summary_month`, with the totals dict as explicit accumulator:
`totals[key(e)] = totals.get(key(e), 0) + e.amount` over the records in
order. -/
def groupTotalsAux (key : Expense → String) (t : List (String × ℚ)) :
    List Expense → List (String × ℚ)
  | [] => t
  | e :: rest =>
      groupTotalsAux key (dictInsert t (key e) (dictGet t (key e) 0 + e.amount)) rest

/-- The accumulation loop started from the empty dict, as in the
source. -/
def groupTotals (key : Expense → String) (expenses : List Expense) :
    List (String × ℚ) :=
  groupTotalsAux key [] expenses

/-- The mapping printed by `summary_category(expenses)`: totals keyed by
`e.category`, iterated via `sorted(totals.items())`. -/
def summary_category (expenses : List Expense) : List (String × ℚ) :=
  sortByKey (groupTotals (fun e => e.category) expenses)

/-- The mapping printed by `summary_month(expenses)`: totals keyed by
`e.date[:7]`, iterated via `sorted(monthly.items())`. -/
def summary_month (expenses : List Expense) : List (String × ℚ) :=
  sortByKey (groupTotals (fun e => e.date.take 7) expenses)

/-- The grand total printed at the bottom of `list_expenses`:
`sum(e.amount for e in expenses)`. -/
def listTotal (expenses : List Expense) : ℚ :=
  (expenses.map Expense.amount).sum

/-! ### Helper lemmas -/

/-- The fold implementing Python `max(e.id for e in expenses)` starting
from `a` attains one of `a` or a member id, and bounds them all. -/
theorem foldl_max_spec (rest : List Expense) (a : ℤ) :
    ((rest.foldl (fun m x => max m x.id) a = a ∨
        ∃ e ∈ rest, rest.foldl (fun m x => max m x.id) a = e.id) ∧
      a ≤ rest.foldl (fun m x => max m x.id) a ∧
      ∀ e ∈ rest, e.id ≤ rest.foldl (fun m x => max m x.id) a) := by
  induction rest generalizing a with
  | nil => exact ⟨Or.inl rfl, le_refl a, by simp⟩
  | cons x rest ih =>
      obtain ⟨hattain, hbase, hmem⟩ := ih (max a x.id)
      rw [List.foldl_cons]
      refine ⟨?_, ?_, ?_⟩
      · rcases hattain with h | ⟨e, he, h⟩
        · rcases max_choice a x.id with hm | hm
          · exact Or.inl (by rw [h, hm])
          · exact Or.inr ⟨x, List.mem_cons_self _ _, by rw [h, hm]⟩
        · exact Or.inr ⟨e, List.mem_cons_of_mem _ he, h⟩
      · exact le_trans (le_max_left a x.id) hbase
      · intro e he
        rcases List.mem_cons.mp he with rfl | he
        · exact le_trans (le_max_right a e.id) hbase
        · exact hmem e he

/-- `readAmount` only ever returns a non-negative amount: negative and
non-numeric inputs are rejected by the validation loop. -/
theorem readAmount_nonneg (inputs : List (Option ℚ)) (q : ℚ)
    (h : readAmount inputs = some q) : 0 ≤ q := by
  induction inputs with
  | nil => simp [readAmount] at h
  | cons i rest ih =>
      match i with
      | none => exact ih h
      | some x =>
          by_cases hx : x < 0
          · simp only [readAmount, if_pos hx] at h
            exact ih h
          · simp only [readAmount, if_neg hx] at h
            cases h
            exact le_of_not_lt hx

/-- Loading the serialised form of an expense recovers it exactly. -/
theorem loadEntry_storedOfExpense (e : Expense) :
    loadEntry (storedOfExpense e) = .ok e := rfl

/-- When a load succeeds, the loaded ids are the stored ids with missing
ids defaulted to `0`. -/
theorem loadItems_ids (raw : List StoredEntry) (l : List Expense)
    (h : loadItems raw = .ok l) :
    l.map Expense.id = raw.map (fun s => s.id.getD 0) := by
  induction raw generalizing l with
  | nil => cases h; rfl
  | cons entry rest ih =>
      rw [loadItems] at h
      cases he : loadEntry entry with
      | error msg => rw [he] at h; cases h
      | ok e =>
          rw [he] at h
          cases hr : loadItems rest with
          | error msg => rw [hr] at h; cases h
          | ok es =>
              rw [hr] at h
              cases h
              have hid : e.id = entry.id.getD 0 := by
                rw [loadEntry] at he
                cases hc : coerceAmount entry.amount with
                | error msg => rw [hc] at he; cases he
                | ok a => rw [hc] at he; cases he; rfl
              simp [ih es hr, hid]

/-- Reading a key just written reads the written value. -/
theorem dictGet_insert_self (d : List (String × ℚ)) (k : String) (v w : ℚ) :
    dictGet (dictInsert d k v) k w = v := by
  induction d with
  | nil => simp [dictInsert, dictGet]
  | cons p rest ih =>
      obtain ⟨k', v'⟩ := p
      by_cases h : k' = k
      · simp [dictInsert, dictGet, h]
      · simp [dictInsert, dictGet, h, ih]

/-- Writing one key leaves every other key's value unchanged. -/
theorem dictGet_insert_ne (d : List (String × ℚ)) (k c : String) (hne : c ≠ k)
    (v w : ℚ) : dictGet (dictInsert d k v) c w = dictGet d c w := by
  have hkc : ¬(k = c) := fun h => hne h.symm
  induction d with
  | nil => simp [dictInsert, dictGet, hkc]
  | cons p rest ih =>
      obtain ⟨k', v'⟩ := p
      by_cases h : k' = k
      · subst h
        simp [dictInsert, dictGet, hkc]
      · by_cases hc : k' = c
        · subst hc
          simp [dictInsert, dictGet, h]
        · simp [dictInsert, dictGet, h, hc, ih]

/-- Writing an existing key keeps the key list; writing a new key appends
it. -/
theorem keys_insert (d : List (String × ℚ)) (k : String) (v : ℚ) :
    (dictInsert d k v).map Prod.fst =
      if k ∈ d.map Prod.fst then d.map Prod.fst else d.map Prod.fst ++ [k] := by
  induction d with
  | nil => simp [dictInsert]
  | cons p rest ih =>
      obtain ⟨k', v'⟩ := p
      by_cases h : k' = k
      · subst h
        simp [dictInsert]
      · have hne : ¬(k = k') := fun hh => h hh.symm
        simp only [dictInsert, if_neg h, List.map_cons, ih]
        by_cases hk : k ∈ rest.map Prod.fst
        · rw [if_pos hk, if_pos (by simp [List.mem_cons, hk])]
        · rw [if_neg hk, if_neg (by simp [List.mem_cons, hne, hk]),
            List.cons_append]

/-- A key is in the dict after a write iff it was there before or is the
written key. -/
theorem mem_keys_insert (d : List (String × ℚ)) (k : String) (v : ℚ)
    (c : String) :
    (c ∈ (dictInsert d k v).map Prod.fst ↔ c ∈ d.map Prod.fst ∨ c = k) := by
  rw [keys_insert]
  by_cases h : k ∈ d.map Prod.fst
  · rw [if_pos h]
    constructor
    · exact Or.inl
    · rintro (hc | rfl)
      · exact hc
      · exact h
  · rw [if_neg h]
    simp

/-- A write preserves duplicate-freedom of the key list. -/
theorem nodup_keys_insert (d : List (String × ℚ)) (k : String) (v : ℚ)
    (h : (d.map Prod.fst).Nodup) :
    ((dictInsert d k v).map Prod.fst).Nodup := by
  rw [keys_insert]
  by_cases hk : k ∈ d.map Prod.fst
  · rw [if_pos hk]; exact h
  · rw [if_neg hk]
    simp [List.nodup_append, h, hk]

/-- In a dict with duplicate-free keys, membership of a pair is exactly
key membership together with `dictGet` reading the pair's value. -/
theorem mem_dict_iff (d : List (String × ℚ))
    (h : (d.map Prod.fst).Nodup) (k : String) (v : ℚ) :
    ((k, v) ∈ d ↔ k ∈ d.map Prod.fst ∧ dictGet d k 0 = v) := by
  induction d with
  | nil => simp [dictGet]
  | cons p rest ih =>
      obtain ⟨k', v'⟩ := p
      rw [List.map_cons, List.nodup_cons] at h
      obtain ⟨hk', hrest⟩ := h
      by_cases hkk : k' = k
      · subst hkk
        simp only [List.mem_cons, List.map_cons, dictGet, if_pos rfl]
        constructor
        · rintro (hp | hp)
          · cases hp; exact ⟨by simp, rfl⟩
          · exact absurd ((ih hrest).mp hp).1 hk'
        · rintro ⟨_, rfl⟩
          simp
      · simp only [List.mem_cons, List.map_cons, dictGet, if_neg hkk]
        constructor
        · rintro (hp | hp)
          · cases hp; exact absurd rfl hkk
          · obtain ⟨hm, hg⟩ := (ih hrest).mp hp
            exact ⟨Or.inr hm, hg⟩
        · rintro ⟨hm | hm, hg⟩
          · exact absurd hm.symm hkk
          · exact Or.inr ((ih hrest).mpr ⟨hm, hg⟩)

/-- The written values' sum after a write: the old value of the key is
replaced by the new one (an absent key reads as the default `0`). -/
theorem valuesSum_insert (d : List (String × ℚ)) (k : String) (v : ℚ) :
    ((dictInsert d k v).map Prod.snd).sum =
      (d.map Prod.snd).sum - dictGet d k 0 + v := by
  induction d with
  | nil => simp [dictInsert, dictGet]
  | cons p rest ih =>
      obtain ⟨k', v'⟩ := p
      by_cases h : k' = k
      · subst h
        simp only [dictInsert, dictGet, eq_self_iff_true, if_true, List.map_cons,
          List.sum_cons]
        ring
      · simp only [dictInsert, if_neg h, List.map_cons, List.sum_cons, dictGet,
          ih]
        ring

/-! ### The accumulation loop of the two summaries -/

/-- After accumulating the records into the totals dict, each key reads
as its value in the starting dict plus the summed amounts of the records
whose key matches. -/
theorem groupTotalsAux_dictGet (key : Expense → String) (es : List Expense)
    (t : List (String × ℚ)) (c : String) :
    dictGet (groupTotalsAux key t es) c 0 =
      dictGet t c 0 +
        ((es.filter fun e => key e = c).map Expense.amount).sum := by
  induction es generalizing t with
  | nil => simp [groupTotalsAux]
  | cons e rest ih =>
      rw [groupTotalsAux, ih]
      by_cases h : key e = c
      · rw [List.filter_cons_of_pos (by simp [h]), List.map_cons, List.sum_cons,
          ← h, dictGet_insert_self]
        ring
      · rw [List.filter_cons_of_neg (by simp [h]),
          dictGet_insert_ne _ _ _ (fun hc => h hc.symm)]

/-- After the accumulation, the key list holds exactly the starting keys
and the records' keys. -/
theorem groupTotalsAux_keys_mem (key : Expense → String) (es : List Expense)
    (t : List (String × ℚ)) (c : String) :
    (c ∈ ((groupTotalsAux key t es).map Prod.fst) ↔
      c ∈ t.map Prod.fst ∨ c ∈ es.map key) := by
  induction es generalizing t with
  | nil => simp [groupTotalsAux]
  | cons e rest ih =>
      rw [groupTotalsAux, ih, mem_keys_insert]
      simp only [List.map_cons, List.mem_cons]
      tauto

/-- The accumulation preserves duplicate-freedom of the key list. -/
theorem groupTotalsAux_keys_nodup (key : Expense → String) (es : List Expense)
    (t : List (String × ℚ)) (h : (t.map Prod.fst).Nodup) :
    ((groupTotalsAux key t es).map Prod.fst).Nodup := by
  induction es generalizing t with
  | nil => exact h
  | cons e rest ih =>
      rw [groupTotalsAux]
      exact ih _ (nodup_keys_insert _ _ _ h)

/-- The accumulation adds each record's amount to the dict's value sum
exactly once. -/
theorem groupTotalsAux_valuesSum (key : Expense → String) (es : List Expense)
    (t : List (String × ℚ)) :
    ((groupTotalsAux key t es).map Prod.snd).sum =
      (t.map Prod.snd).sum + (es.map Expense.amount).sum := by
  induction es generalizing t with
  | nil => simp [groupTotalsAux]
  | cons e rest ih =>
      rw [groupTotalsAux, ih, valuesSum_insert, List.map_cons, List.sum_cons]
      ring

/-! ### Sorting -/

/-- `sortByKey` permutes its input. -/
theorem sortByKey_perm (d : List (String × ℚ)) : List.Perm (sortByKey d) d :=
  List.perm_insertionSort _ d

/-- `sortByKey` preserves membership. -/
theorem sortByKey_mem (d : List (String × ℚ)) (p : String × ℚ) :
    (p ∈ sortByKey d ↔ p ∈ d) :=
  (sortByKey_perm d).mem_iff

/-- `sortByKey` sorts by key, weakly. -/
theorem sortByKey_sorted (d : List (String × ℚ)) :
    (sortByKey d).Sorted (fun a b => a.1 ≤ b.1) := by
  haveI : IsTotal (String × ℚ) (fun a b => a.1 ≤ b.1) :=
    ⟨fun a b => le_total a.1 b.1⟩
  haveI : IsTrans (String × ℚ) (fun a b => a.1 ≤ b.1) :=
    ⟨fun _ _ _ h1 h2 => le_trans h1 h2⟩
  exact List.sorted_insertionSort _ d

/-- On a dict with duplicate-free keys, `sortByKey` yields strictly
ascending keys. -/
theorem sortByKey_keys_strict (d : List (String × ℚ))
    (h : (d.map Prod.fst).Nodup) :
    ((sortByKey d).map Prod.fst).Pairwise (fun a b => a < b) := by
  have hnd : ((sortByKey d).map Prod.fst).Nodup :=
    (((sortByKey_perm d).map Prod.fst).nodup_iff).mpr h
  have hp : ((sortByKey d).map Prod.fst).Pairwise (fun a b => a ≠ b) := hnd
  rw [List.pairwise_map] at hp ⊢
  exact ((sortByKey_sorted d).and hp).imp fun hab => lt_of_le_of_ne hab.1 hab.2

/-! ### The claims -/

/-- C1: saving a record set whose ids are non-negative and whose amounts
are non-negative to a fresh store and loading it back yields the same
records, field for field and in the same order. -/
theorem C1_save_load_roundtrip (R : List Expense)
    (hid : ∀ e ∈ R, 0 ≤ e.id) (hamt : ∀ e ∈ R, 0 ≤ e.amount) :
    load_expenses (save_expenses R) = .ok R := by
  induction R with
  | nil => rfl
  | cons e rest ih =>
      have h := ih (fun x hx => hid x (List.mem_cons_of_mem _ hx))
        (fun x hx => hamt x (List.mem_cons_of_mem _ hx))
      simp only [load_expenses, save_expenses, List.map_cons] at h ⊢
      rw [loadItems, loadEntry_storedOfExpense, h]

theorem C1_witness :
    load_expenses (save_expenses [⟨1, "2024-01-01", "food", "lunch", 10⟩]) =
      .ok [⟨1, "2024-01-01", "food", "lunch", 10⟩] :=
  C1_save_load_roundtrip _ (by decide) (by decide)

/-- C2: a missing storage file loads as the empty record set, and a file
whose content fails to parse as JSON also loads as the empty record set;
neither case surfaces an error. -/
theorem C2_missing_or_malformed :
    load_expenses .absent = .ok [] ∧ load_expenses .malformed = .ok [] :=
  ⟨rfl, rfl⟩

/-- C3: a stored item with a missing amount field loads with amount `0`,
but a stored amount with no numeric reading (such as the text `"abc"`)
makes the whole load fail with an error propagated to the caller. -/
theorem C3_amount_coercion :
    (∀ entry : StoredEntry, entry.amount = .missing →
        loadEntry entry = .ok
          { id := entry.id.getD 0, date := entry.date.getD "",
            category := entry.category.getD "",
            description := entry.description.getD "", amount := 0 }) ∧
    (∀ (entries : List StoredEntry) (entry : StoredEntry),
        entry ∈ entries → entry.amount = .str none →
        ∃ msg, load_expenses (.parsed entries) = .error msg) := by
  constructor
  · intro entry h
    rw [loadEntry, h]
    rfl
  · intro entries entry hmem hbad
    simp only [load_expenses]
    induction entries with
    | nil => cases hmem
    | cons first rest ih =>
        rw [loadItems]
        cases hf : loadEntry first with
        | error msg => exact ⟨msg, rfl⟩
        | ok e =>
            rcases List.mem_cons.mp hmem with rfl | hmem'
            · rw [loadEntry, hbad] at hf
              cases hf
            · obtain ⟨msg, hmsg⟩ := ih hmem'
              rw [hmsg]
              exact ⟨msg, rfl⟩

theorem C3_witness :
    loadEntry ⟨none, none, some "food", none, .missing⟩ =
      .ok ⟨0, "", "food", "", 0⟩ ∧
    ∃ msg, load_expenses (.parsed [⟨some 1, none, none, none, .str none⟩]) =
      .error msg :=
  ⟨C3_amount_coercion.1 _ rfl,
   C3_amount_coercion.2 _ _ (List.mem_singleton.mpr rfl) rfl⟩

/-- C4: `next_id` returns `1` on the empty record set and the maximum id
plus one on a non-empty record set.  (Purity and non-mutation are
inherent to the functional model: `next_id` is a function of its
argument.) -/
theorem C4_next_id_spec (l : List Expense) :
    (l = [] → next_id l = 1) ∧
    (l ≠ [] →
      (∃ e ∈ l, next_id l = e.id + 1) ∧ ∀ e ∈ l, e.id + 1 ≤ next_id l) := by
  constructor
  · rintro rfl; rfl
  · intro hne
    match l with
    | e :: rest =>
        obtain ⟨hattain, hbase, hmem⟩ := foldl_max_spec rest e.id
        rw [next_id]
        constructor
        · rcases hattain with h | ⟨x, hx, h⟩
          · exact ⟨e, List.mem_cons_self _ _, by rw [h]⟩
          · exact ⟨x, List.mem_cons_of_mem _ hx, by rw [h]⟩
        · intro x hx
          rcases List.mem_cons.mp hx with rfl | hx
          · exact add_le_add_right hbase 1
          · exact add_le_add_right (hmem x hx) 1

theorem C4_witness :
    next_id [] = 1 ∧
    ((∃ e ∈ ([⟨1, "", "", "", 0⟩, ⟨5, "", "", "", 0⟩, ⟨3, "", "", "", 0⟩] :
          List Expense),
        next_id [⟨1, "", "", "", 0⟩, ⟨5, "", "", "", 0⟩, ⟨3, "", "", "", 0⟩] =
          e.id + 1) ∧
      ∀ e ∈ ([⟨1, "", "", "", 0⟩, ⟨5, "", "", "", 0⟩, ⟨3, "", "", "", 0⟩] :
          List Expense),
        e.id + 1 ≤
          next_id [⟨1, "", "", "", 0⟩, ⟨5, "", "", "", 0⟩, ⟨3, "", "", "", 0⟩]) :=
  ⟨(C4_next_id_spec []).1 rfl, (C4_next_id_spec _).2 (by simp)⟩

/-- C8: whenever the add-expense interaction completes, the new record
set is the old one with exactly one record appended, and that record's
amount is non-negative: the validation loop rejects every negative
amount before the record is constructed. -/
theorem C8_amount_nonneg (expenses : List Expense)
    (today rawDate category desc : String) (amountInputs : List (Option ℚ))
    (es' : List Expense)
    (h : add_expense expenses today rawDate category desc amountInputs = some es') :
    ∃ e : Expense, es' = expenses ++ [e] ∧ 0 ≤ e.amount := by
  rw [add_expense] at h
  cases hr : readAmount amountInputs with
  | none => rw [hr] at h; cases h
  | some q =>
      rw [hr] at h
      cases h
      exact ⟨_, rfl, readAmount_nonneg amountInputs q hr⟩

theorem C8_witness :
    ∃ e : Expense,
      [(⟨1, "2024-01-01", "uncategorized", "No description", 2⟩ : Expense)] =
        [] ++ [e] ∧ 0 ≤ e.amount :=
  C8_amount_nonneg [] "2024-01-01" "" "" "" [some (-3), none, some 2] _ (by decide)

/-- C9: a confirmed reset overwrites the file with the empty array
regardless of its previous state (and of any in-memory records); a second
reset leaves it empty again, and loading after a reset yields the empty
record set. -/
theorem C9_reset_idempotent (fs : FileState) (confirm : String)
    (h : confirm = "yes" ∨ confirm = "y") :
    reset_expenses confirm fs = .parsed [] ∧
    reset_expenses confirm (reset_expenses confirm fs) = .parsed [] ∧
    load_expenses (reset_expenses confirm fs) = .ok [] := by
  rcases h with rfl | rfl <;> exact ⟨rfl, rfl, rfl⟩

theorem C9_witness :
    reset_expenses "yes" .malformed = .parsed [] ∧
    reset_expenses "yes" (reset_expenses "yes" .malformed) = .parsed [] ∧
    load_expenses (reset_expenses "yes" .malformed) = .ok [] :=
  C9_reset_idempotent .malformed "yes" (Or.inl rfl)

/-- Taking at least as many characters as a string has returns the whole
string. -/
theorem string_take_of_le (s : String) (n : Nat) (h : s.length ≤ n) :
    s.take n = s := by
  obtain ⟨data⟩ := s
  rw [String.take_eq, List.take_of_length_le h]

/-- Every id in a record set is strictly below `next_id` of that set. -/
theorem id_lt_next_id (expenses : List Expense) (e : Expense)
    (he : e ∈ expenses) : e.id < next_id expenses := by
  match expenses with
  | x :: rest =>
      obtain ⟨_, hbase, hmem⟩ := foldl_max_spec rest x.id
      rw [next_id]
      rcases List.mem_cons.mp he with rfl | he'
      · exact Int.lt_add_one_iff.mpr hbase
      · exact Int.lt_add_one_iff.mpr (hmem e he')

/-- C5: `summary_category` yields the empty mapping on the empty record
set, iterates its entries in strictly ascending lexicographic order of
category, and maps exactly the categories occurring in the records, each
to the sum of the amounts of the records with that exact category. -/
theorem C5_summary_category (expenses : List Expense) :
    summary_category [] = ([] : List (String × ℚ)) ∧
    ((summary_category expenses).map Prod.fst).Pairwise (fun a b => a < b) ∧
    ∀ c q, ((c, q) ∈ summary_category expenses ↔
      (c ∈ expenses.map Expense.category ∧
        q = ((expenses.filter fun e => e.category = c).map Expense.amount).sum)) := by
  have hnd :
      ((groupTotals (fun e => e.category) expenses).map Prod.fst).Nodup :=
    groupTotalsAux_keys_nodup _ expenses [] (by simp)
  refine ⟨rfl, sortByKey_keys_strict _ hnd, ?_⟩
  intro c q
  rw [summary_category, sortByKey_mem, mem_dict_iff _ hnd, groupTotals,
    groupTotalsAux_keys_mem, groupTotalsAux_dictGet]
  simp [dictGet, eq_comm]

/-- C6: `summary_month` yields the empty mapping on the empty record set,
iterates its entries in strictly ascending lexicographic order of the
month key, groups by the first seven characters of each record's date
(for a date shorter than seven characters the key is the date itself,
unvalidated and unpadded), and maps each key to the sum of the matching
records' amounts. -/
theorem C6_summary_month (expenses : List Expense) :
    summary_month [] = ([] : List (String × ℚ)) ∧
    ((summary_month expenses).map Prod.fst).Pairwise (fun a b => a < b) ∧
    (∀ m q, ((m, q) ∈ summary_month expenses ↔
      (m ∈ expenses.map (fun e => e.date.take 7) ∧
        q = ((expenses.filter fun e => e.date.take 7 = m).map
              Expense.amount).sum))) ∧
    ∀ e ∈ expenses, e.date.length ≤ 7 → e.date.take 7 = e.date := by
  have hnd :
      ((groupTotals (fun e => e.date.take 7) expenses).map Prod.fst).Nodup :=
    groupTotalsAux_keys_nodup _ expenses [] (by simp)
  refine ⟨rfl, sortByKey_keys_strict _ hnd, ?_, ?_⟩
  · intro m q
    rw [summary_month, sortByKey_mem, mem_dict_iff _ hnd, groupTotals,
      groupTotalsAux_keys_mem, groupTotalsAux_dictGet]
    simp [dictGet, eq_comm]
  · intro e _ hlen
    exact string_take_of_le _ _ hlen

theorem C6_witness :
    (⟨1, "2024", "c", "x", 1⟩ : Expense).date.take 7 =
      (⟨1, "2024", "c", "x", 1⟩ : Expense).date :=
  (C6_summary_month [⟨1, "2024", "c", "x", 1⟩]).2.2.2 _ (by simp) (by decide)

/-- C10: the per-category totals of the category summary sum to the grand
total printed by `list_expenses`: grouping loses no amount and counts
none twice. -/
theorem C10_category_totals_conserve (expenses : List Expense) :
    ((summary_category expenses).map Prod.snd).sum = listTotal expenses := by
  rw [summary_category,
    ((sortByKey_perm _).map Prod.snd).sum_eq, groupTotals,
    groupTotalsAux_valuesSum]
  simp [listTotal]

/-- C7 as stated is false: `load_expenses` can produce a record set with
duplicate ids, because a stored entry with no `id` field loads with id
`0`, so two such entries collide. -/
theorem C7_counterexample :
    ∃ l, load_expenses (.parsed
        [⟨none, some "2024-01-01", some "a", some "x", .num 1⟩,
         ⟨none, some "2024-01-02", some "b", some "y", .num 2⟩]) = .ok l ∧
      ¬(l.map Expense.id).Nodup := by
  refine ⟨[⟨0, "2024-01-01", "a", "x", 1⟩, ⟨0, "2024-01-02", "b", "y", 2⟩],
    rfl, ?_⟩
  decide

/-- C7 amended: ids are pairwise distinct in every record set produced by
a confirmed reset followed by a load, or by appending via `add_expense`
to a set whose ids were pairwise distinct; a plain load guarantees
distinct ids only when the stored ids (missing ids read as `0`) are
themselves pairwise distinct. -/
theorem C7_distinct_ids :
    (∀ (confirm : String) (fs : FileState),
        confirm = "yes" ∨ confirm = "y" →
        ∃ l, load_expenses (reset_expenses confirm fs) = .ok l ∧
          (l.map Expense.id).Nodup) ∧
    (∀ (expenses : List Expense) (today rawDate category desc : String)
        (amountInputs : List (Option ℚ)) (es' : List Expense),
        (expenses.map Expense.id).Nodup →
        add_expense expenses today rawDate category desc amountInputs = some es' →
        (es'.map Expense.id).Nodup) ∧
    (∀ (raw : List StoredEntry) (l : List Expense),
        (raw.map (fun s => s.id.getD 0)).Nodup →
        load_expenses (.parsed raw) = .ok l →
        (l.map Expense.id).Nodup) := by
  refine ⟨?_, ?_, ?_⟩
  · rintro confirm fs (rfl | rfl) <;> exact ⟨[], rfl, List.nodup_nil⟩
  · intro expenses today rawDate category desc amountInputs es' hnd h
    rw [add_expense] at h
    cases hr : readAmount amountInputs with
    | none => rw [hr] at h; cases h
    | some q =>
        rw [hr] at h
        cases h
        rw [List.map_append]
        refine List.Nodup.append hnd (by simp) ?_
        intro a ha hb
        simp only [List.map_cons, List.map_nil, List.mem_singleton] at hb
        subst hb
        obtain ⟨e, he, heq⟩ := List.mem_map.mp ha
        exact absurd heq (ne_of_lt (id_lt_next_id expenses e he))
  · intro raw l hnd h
    rw [load_expenses] at h
    rw [loadItems_ids raw l h]
    exact hnd

theorem C7_witness :
    (∃ l, load_expenses (reset_expenses "yes" .malformed) = .ok l ∧
        (l.map Expense.id).Nodup) ∧
    (([(⟨1, "d", "c", "x", 2⟩ : Expense),
        ⟨2, "t", "uncategorized", "No description", 3⟩].map Expense.id).Nodup) ∧
    (([(⟨1, "2024-01-01", "a", "x", 1⟩ : Expense)].map Expense.id).Nodup) :=
  ⟨C7_distinct_ids.1 "yes" .malformed (Or.inl rfl),
   C7_distinct_ids.2.1 [⟨1, "d", "c", "x", 2⟩] "t" "" "" "" [some 3] _
     (by decide) (by decide),
   C7_distinct_ids.2.2 [⟨some 1, some "2024-01-01", some "a", some "x", .num 1⟩]
     _ (by decide) rfl⟩

end ExpenseTracker
